import Mathlib

/-!
Shallow embedding of the poker equity estimator (doxy-poker.c): the hand
evaluator `evaluate_hand`, the pairwise comparator `is_hand_better`, the
multi-way comparator `find_winning_opponent`, and the Monte Carlo simulator
`calculate_win_probability` (deck marking and opponent dealing).

Machine `int`s are modelled as `Int` (the C sentinel rank `-1` is kept).
Array reads that the C code may perform out of bounds are modelled with
`Option`: a `none` result marks an execution that reads past the end of an
array.  Counting arrays (`rank_count`, `suit_count`) are modelled as their
extensional count functions over the card list.
-/

/-- A playing card: `rank` 0..12 for 2..A, `suit` 0..3; rank `-1` is the
sentinel the simulator writes to mark a card as used. -/
structure Card where
  rank : Int
  suit : Int
deriving DecidableEq, Repr

/-- Result of `evaluate_hand`: combination level, primary rank, secondary
rank (`-1` when absent). -/
structure HandEvaluation where
  combination_level : Int
  highest_card : Int
  second_highest_card : Int
deriving DecidableEq, Repr

/-- The deck produced by `initialize_deck`: index `r*4+s` holds card `(r,s)`. -/
def fullDeck : List Card :=
  (List.range 13).flatMap (fun r => (List.range 4).map (fun s => ⟨(r : Int), (s : Int)⟩))

/-- Number of cards of rank `r` (the `rank_count` array of `evaluate_hand`). -/
def rankCount (cards : List Card) (r : Int) : Nat :=
  (cards.filter (fun c => c.rank == r)).length

/-- Number of cards of suit `s` (the `suit_count` array of `evaluate_hand`). -/
def suitCount (cards : List Card) (s : Int) : Nat :=
  (cards.filter (fun c => c.suit == s)).length

/-- The descending-by-rank order that `compare_cards` induces under qsort. -/
def rankGE (a b : Card) : Prop := b.rank ≤ a.rank

instance : DecidableRel rankGE := fun a b => Int.decLe b.rank a.rank

instance : IsTotal Card rankGE := ⟨fun a b => le_total b.rank a.rank⟩

instance : IsTrans Card rankGE := ⟨fun _ _ _ h1 h2 => le_trans h2 h1⟩

/-- The qsort call with `compare_cards`: sort descending by rank.  (qsort is
unstable, so any descending sort models it; everything downstream reads only
`all_cards[0].rank`, which any descending sort determines.) -/
def sortedCards (cards : List Card) : List Card :=
  cards.insertionSort rankGE

/-- The read of `all_cards[0].rank` after sorting (only ever used on
non-empty input: the hand always has 2 cards). -/
def firstRank (cards : List Card) : Int :=
  match sortedCards cards with
  | [] => 0
  | c :: _ => c.rank

/-- The rank indices 0..12 scanned by the `for (i = 0; i < NUM_RANKS; i++)`
loops of `evaluate_hand`, in ascending order. -/
def ranks13 : List Int := [0, 1, 2, 3, 4, 5, 6, 7, 8, 9, 10, 11, 12]

/-- The multiple-of-a-kind loop of `evaluate_hand`: early return (`.inl`)
on a count-4 rank, otherwise the accumulated `(has_three, has_pair, eval)`
state (`.inr`). -/
def kindScanGo (rc : Int → Nat) :
    List Int → Bool → Bool → HandEvaluation →
      Sum HandEvaluation (Bool × Bool × HandEvaluation)
  | [], hasThree, hasPair, ev => .inr (hasThree, hasPair, ev)
  | i :: rest, hasThree, hasPair, ev =>
    if rc i = 4 then
      .inl { ev with combination_level := 8, highest_card := i }
    else if rc i = 3 then
      kindScanGo rc rest true hasPair { ev with highest_card := i }
    else if rc i = 2 then
      kindScanGo rc rest hasThree true
        { ev with second_highest_card :=
            if ev.second_highest_card = -1 ∨ i > ev.second_highest_card then i
            else ev.second_highest_card }
    else
      kindScanGo rc rest hasThree hasPair ev

/-- The straight loop of `evaluate_hand`: `straightScan rc (n+1) consec`
examines rank `n` with `consec` consecutive occupied ranks already seen
above it; returns `some (top-of-run)` when 5 consecutive ranks are occupied. -/
def straightScan (rc : Int → Nat) : Nat → Nat → Option Int
  | 0, _ => none
  | n + 1, consec =>
    if 0 < rc (n : Int) then
      if 5 ≤ consec + 1 then some ((n : Int) + 4)
      else straightScan rc n (consec + 1)
    else straightScan rc n 0

/-- The pair-counting loop of `evaluate_hand`: counts count-2 ranks and
updates `highest_card` / `second_highest_card` as the C code does. -/
def pairScanGo (rc : Int → Nat) :
    List Int → Nat → HandEvaluation → Nat × HandEvaluation
  | [], pairs, ev => (pairs, ev)
  | i :: rest, pairs, ev =>
    if rc i = 2 then
      pairScanGo rc rest (pairs + 1)
        (if ev.highest_card < i then
          { ev with highest_card := i, second_highest_card := ev.highest_card }
         else if ev.second_highest_card < i then
          { ev with second_highest_card := i }
         else ev)
    else pairScanGo rc rest pairs ev

/-- The hand evaluator `evaluate_hand(hand, community_cards, community_size)`:
concatenates the 2-card hand with the community cards, sorts descending,
then applies flush, multiple-of-a-kind, straight and pair checks in the
source's order. -/
def evaluate_hand (hand community : List Card) : HandEvaluation :=
  let allCards := hand ++ community
  let eval0 : HandEvaluation := ⟨0, firstRank allCards, -1⟩
  if (List.range 4).any (fun s => 5 ≤ suitCount allCards (s : Int)) then
    { eval0 with combination_level := 6 }
  else
    match kindScanGo (rankCount allCards) ranks13 false false eval0 with
    | .inl ev => ev
    | .inr (hasThree, hasPair, ev1) =>
      if hasThree && hasPair then { ev1 with combination_level := 7 }
      else if hasThree then { ev1 with combination_level := 3 }
      else
        match straightScan (rankCount allCards) 13 0 with
        | some top => { ev1 with combination_level := 4, highest_card := top }
        | none =>
          match pairScanGo (rankCount allCards) ranks13 0 ev1 with
          | (pairs, ev2) =>
            if 2 ≤ pairs then { ev2 with combination_level := 2 }
            else if pairs = 1 then { ev2 with combination_level := 1 }
            else { ev2 with combination_level := 0 }

/-- The positional fallback loop of `is_hand_better`, iterating
`i = HAND_SIZE + community_size - 1` down to `0`; the argument is the number
of iterations left (so the case `n+1` examines index `n`).  A read past the
end of the community array or of a 2-card hand array yields `none`. -/
def fallbackLoop (hand1 hand2 community : List Card) : Nat → Option Bool
  | 0 => some false
  | n + 1 =>
    match community.get? n with
    | none => none
    | some cc =>
      if cc.rank = -1 then fallbackLoop hand1 hand2 community n
      else
        match hand1.get? n, hand2.get? n with
        | some a, some b =>
          if a.rank > b.rank then some true
          else if a.rank < b.rank then some false
          else fallbackLoop hand1 hand2 community n
        | _, _ => none

/-- The comparator `is_hand_better(hand1, hand2, community_cards,
community_size)`; `some b` is the C return value `b`, `none` an execution
that reads an array out of bounds (only the positional fallback can). -/
def is_hand_better (hand1 hand2 community : List Card) : Option Bool :=
  let eval1 := evaluate_hand hand1 community
  let eval2 := evaluate_hand hand2 community
  if eval1.combination_level > eval2.combination_level then some true
  else if eval1.combination_level < eval2.combination_level then some false
  else if eval1.highest_card > eval2.highest_card then some true
  else if eval1.highest_card < eval2.highest_card then some false
  else if eval1.second_highest_card ≠ -1 ∧ eval2.second_highest_card ≠ -1 then
    if eval1.second_highest_card > eval2.second_highest_card then some true
    else if eval1.second_highest_card < eval2.second_highest_card then some false
    else some false
  else if eval1.second_highest_card ≠ -1 then some true
  else if eval2.second_highest_card ≠ -1 then some false
  else fallbackLoop hand1 hand2 community (2 + community.length)

/-- The three-way strict comparison inlined in `find_winning_opponent`:
does the opponent evaluation beat the player evaluation?  (All three winning
branches of the C loop body perform the same assignments.) -/
def beats (oe pe : HandEvaluation) : Bool :=
  if oe.combination_level > pe.combination_level then true
  else if oe.combination_level = pe.combination_level then
    if oe.highest_card > pe.highest_card then true
    else if oe.highest_card = pe.highest_card ∧
        oe.second_highest_card > pe.second_highest_card then true
    else false
  else false

/-- The opponent loop of `find_winning_opponent`, carrying the loop index,
`winning_opponent_index` and `player_wins`. -/
def fwoGo (pe : HandEvaluation) (community : List Card) :
    List (List Card) → Int → Int → Bool → Int × Bool
  | [], _, winIdx, playerWins => (winIdx, playerWins)
  | h :: rest, i, winIdx, playerWins =>
    if beats (evaluate_hand h community) pe then
      fwoGo pe community rest (i + 1) i false
    else
      fwoGo pe community rest (i + 1) winIdx playerWins

/-- The multi-way comparator `find_winning_opponent`: `-1` when the player
wins, otherwise the recorded opponent index. -/
def find_winning_opponent (playerHand : List Card)
    (opponentHands : List (List Card)) (community : List Card) : Int :=
  match fwoGo (evaluate_hand playerHand community) community opponentHands 0 (-1) true with
  | (winIdx, playerWins) => if playerWins then -1 else winIdx

/-- The write `deck[idx].rank = -1` of `calculate_win_probability` (an
out-of-range index, impossible for valid cards, is a no-op here). -/
def setRankNeg1 : List Card → Nat → List Card
  | [], _ => []
  | c :: rest, 0 => { c with rank := -1 } :: rest
  | c :: rest, n + 1 => c :: setRankNeg1 rest n

/-- The two marking loops of `calculate_win_probability`: for each known
card, overwrite the rank at deck position `rank*NUM_SUITS + suit` with `-1`.
Note the position is computed from the card's fields although the deck has
already been shuffled. -/
def markUsed (deck : List Card) (known : List Card) : List Card :=
  known.foldl (fun d c => setRankNeg1 d (c.rank * 4 + c.suit).toNat) deck

/-- One execution of the inner `do { ... } while (rank == -1)` dealing loop:
pop cards off the (remaining) deck until an unmarked one appears; `none`
models the cursor running past the end of the 52-card array. -/
def dealOne : List Card → Option (Card × List Card)
  | [] => none
  | c :: rest => if c.rank = -1 then dealOne rest else some (c, rest)

/-- The opponent-dealing loops: deal `n` two-card hands sequentially,
returning the hands and the remaining deck. -/
def dealHands : Nat → List Card → Option (List (List Card) × List Card)
  | 0, d => some ([], d)
  | n + 1, d =>
    match dealOne d with
    | none => none
    | some (c1, d1) =>
      match dealOne d1 with
      | none => none
      | some (c2, d2) =>
        match dealHands n d2 with
        | none => none
        | some (hands, d3) => some ([c1, c2] :: hands, d3)

/-- One Monte Carlo trial of `calculate_win_probability`, parameterized by
the shuffled deck this trial's `shuffle_deck` call produced: mark the known
cards, deal the opponents, and report `some true` when the player wins
(`find_winning_opponent` returns `-1`), `some false` otherwise; `none` when
dealing runs off the deck. -/
def trial (shuffled : List Card) (playerHand community : List Card)
    (numPlayers : Nat) : Option Bool :=
  let marked := markUsed shuffled (playerHand ++ community)
  match dealHands (numPlayers - 1) marked with
  | none => none
  | some (opps, _) =>
    some (find_winning_opponent playerHand opps community = -1)

/-- The trial loop of `calculate_win_probability`: run trials `0..n-1` and
accumulate the `(wins, losses, ties)` counters (`ties` is declared but never
incremented by the source). -/
def runSim (trialFn : Nat → Option Bool) : Nat → Option (Nat × Nat × Nat)
  | 0 => some (0, 0, 0)
  | n + 1 =>
    match runSim trialFn n, trialFn n with
    | some (w, l, t), some true => some (w + 1, l, t)
    | some (w, l, t), some false => some (w, l + 1, t)
    | _, _ => none

/-- The number of Monte Carlo trials (`MONTE_CARLO_SIMULATIONS`). -/
def MONTE_CARLO_SIMULATIONS : Nat := 10000

/-- The simulator `calculate_win_probability`, parameterized by the stream
of shuffled decks (`decks i` is the permutation trial `i` draws): returns
`(wins * 100) / (wins + losses + ties)`, or `none` if any trial reads the
deck out of bounds. -/
def calculate_win_probability (decks : Nat → List Card)
    (playerHand community : List Card) (numPlayers : Nat) : Option Nat :=
  (runSim (fun i => trial (decks i) playerHand community numPlayers)
      MONTE_CARLO_SIMULATIONS).map
    (fun wlt => (wlt.1 * 100) / (wlt.1 + wlt.2.1 + wlt.2.2))

/-- Specification-side helper for the amended C2: the index of the last
`true` in a list of boolean outcomes. -/
def lastBeatIndex : List Bool → Option Nat
  | [] => none
  | b :: rest =>
    match lastBeatIndex rest with
    | some k => some (k + 1)
    | none => if b then some 0 else none

/-- Specification-side helper for C3: the highest rank among the cards of a
given suit (follows the spec's words, for comparison with the source). -/
def maxRankAmongSuit (cards : List Card) (s : Int) : Int :=
  (cards.filter (fun c => c.suit == s)).foldl (fun m c => max m c.rank) (-1)

/-- A concrete shuffle outcome: the full deck with positions 0 and 2
swapped (the card 2-hearts ends up at deck position 2). -/
def c1_shuffled : List Card := (fullDeck.set 0 ⟨0, 2⟩).set 2 ⟨0, 0⟩

/-- A concrete player hand: 2-hearts and 2-diamonds. -/
def c1_hand : List Card := [⟨0, 0⟩, ⟨0, 1⟩]

/-- Concrete inputs for C10: two hands and a 5-card community on which both
hands evaluate identically to a high-card queen, forcing the positional
fallback of `is_hand_better`. -/
def c10_hand1 : List Card := [⟨1, 0⟩, ⟨4, 1⟩]

/-- Second hand for the C10 input. -/
def c10_hand2 : List Card := [⟨1, 1⟩, ⟨4, 0⟩]

/-- Community cards for the C10 input. -/
def c10_community : List Card := [⟨0, 0⟩, ⟨3, 1⟩, ⟨7, 2⟩, ⟨9, 3⟩, ⟨10, 3⟩]

/-- Concrete player hand for the C2 counterexample: 2-hearts, 3-hearts. -/
def c2_player : List Card := [⟨0, 0⟩, ⟨1, 0⟩]

/-- First opponent for the C2 counterexample: a pair of aces. -/
def c2_opp0 : List Card := [⟨12, 3⟩, ⟨12, 2⟩]

/-- Second opponent for the C2 counterexample: a pair of kings. -/
def c2_opp1 : List Card := [⟨11, 3⟩, ⟨11, 2⟩]

/-- Hand for the C3 counterexample: ace of hearts, king of spades. -/
def c3_hand : List Card := [⟨12, 0⟩, ⟨11, 3⟩]

/-- Community for the C3 counterexample: four more spades and the 2 of
hearts, so spades form a flush whose top card is the king, below the
off-suit ace. -/
def c3_community : List Card := [⟨10, 3⟩, ⟨9, 3⟩, ⟨7, 3⟩, ⟨6, 3⟩, ⟨0, 0⟩]

/-- Hand for the C6 counterexample: a pair of twos. -/
def c6_hand : List Card := [⟨0, 0⟩, ⟨0, 1⟩]

/-- Community for the C6 counterexample: a lone ace above the paired twos. -/
def c6_community : List Card := [⟨12, 3⟩]

/-- Hand for the C7 counterexample: a pair of twos, no community cards. -/
def c7_hand : List Card := [⟨0, 0⟩, ⟨0, 1⟩]

/-- Number of deck entries whose rank has been overwritten with the used
sentinel `-1` (proof-side measure for the dealing loop). -/
def badCount (d : List Card) : Nat :=
  (d.filter (fun c => c.rank == -1)).length

/-- Number of trials among `0..n-1` whose outcome is a player win
(specification-side count for the simulator's `wins` counter). -/
def winCount (trialFn : Nat → Option Bool) (n : Nat) : Nat :=
  ((List.range n).filter (fun i => trialFn i == some true)).length

/-- C1: in `calculate_win_probability` the known cards are marked by index
`rank*4+suit` only after the deck has been shuffled, so the marks land on
whatever cards the shuffle moved there.  For the shuffle outcome that swaps
deck positions 0 and 2, the single opponent of a 2-player trial is dealt the
player's own hole card 2-hearts, contradicting the claimed disjointness. -/
theorem c1_opponent_dealt_players_own_card :
    c1_shuffled.Perm fullDeck ∧
    (dealHands (2 - 1) (markUsed c1_shuffled (c1_hand ++ []))).map Prod.fst
      = some [[⟨0, 0⟩, ⟨0, 3⟩]] ∧
    (⟨0, 0⟩ : Card) ∈ c1_hand := by
  refine ⟨by decide, by decide, by decide⟩

/-- C2 counterexample: both opponents beat the high-card player, the pair of
aces (index 0) strictly beats the pair of kings (index 1), yet
`find_winning_opponent` returns 1 — the last beating opponent, not the best. -/
theorem c2_counterexample :
    find_winning_opponent c2_player [c2_opp0, c2_opp1] [] = 1 ∧
    beats (evaluate_hand c2_opp0 []) (evaluate_hand c2_player []) = true ∧
    beats (evaluate_hand c2_opp1 []) (evaluate_hand c2_player []) = true ∧
    beats (evaluate_hand c2_opp0 []) (evaluate_hand c2_opp1 []) = true ∧
    (1 : Int) ≠ 0 := by
  refine ⟨by decide, by decide, by decide, by decide, by decide⟩

/-- C3 counterexample: a valid 7-distinct-card input whose spade flush tops
out at the king while an off-suit ace is present; `evaluate_hand` reports
level 6 with primary rank 12 (the overall maximum), not 11 (the flush
suit's maximum) as the claim requires. -/
theorem c3_counterexample :
    (c3_hand ++ c3_community).Nodup ∧
    c3_hand.length = 2 ∧ c3_community.length = 5 ∧
    5 ≤ suitCount (c3_hand ++ c3_community) 3 ∧
    maxRankAmongSuit (c3_hand ++ c3_community) 3 = 11 ∧
    evaluate_hand c3_hand c3_community = ⟨6, 12, -1⟩ ∧
    (12 : Int) ≠ 11 := by
  refine ⟨by decide, by decide, by decide, by decide, by decide, by decide, by decide⟩

/-- C6 counterexample: three distinct cards with exactly one paired rank
(the twos), no suit with five cards, no three- or four-of-a-kind, and no
straight; `evaluate_hand` returns level 1 but primary rank 12 (the unpaired
ace), not 0 (the paired rank) as the claim requires. -/
theorem c6_counterexample :
    (c6_hand ++ c6_community).Nodup ∧
    (∀ s ∈ List.range 4, ¬ 5 ≤ suitCount (c6_hand ++ c6_community) (s : Int)) ∧
    (∀ r ∈ ranks13, rankCount (c6_hand ++ c6_community) r ≠ 3 ∧
      rankCount (c6_hand ++ c6_community) r ≠ 4) ∧
    (∀ r ∈ List.range 9, ∃ k ∈ List.range 5,
      rankCount (c6_hand ++ c6_community) ((r : Int) + (k : Int)) = 0) ∧
    rankCount (c6_hand ++ c6_community) 0 = 2 ∧
    (∀ r ∈ ranks13, rankCount (c6_hand ++ c6_community) r = 2 → r = 0) ∧
    evaluate_hand c6_hand c6_community = ⟨1, 12, 0⟩ ∧
    (12 : Int) ≠ 0 := by
  refine ⟨by decide, by decide, by decide, by decide, by decide, by decide,
    by decide, by decide⟩

/-- C7 counterexample: a lone pair of twos evaluates to combination level 1
(neither two-pair nor full-house) yet carries secondary rank 0, not the
claimed absent marker -1. -/
theorem c7_counterexample :
    evaluate_hand c7_hand [] = ⟨1, 0, 0⟩ ∧
    (1 : Int) ≠ 2 ∧ (1 : Int) ≠ 7 ∧ (0 : Int) ≠ -1 := by
  refine ⟨by decide, by decide, by decide, by decide⟩

/-- C10: on two valid hands that tie exactly (both high-card queen with no
secondary rank), `is_hand_better` enters its positional fallback, whose
first iteration reads the community array at index `community_size + 1 = 6`
— past the 5 known cards; the modelled execution aborts with `none`. -/
theorem c10_fallback_reads_out_of_bounds :
    ((c10_hand1 ++ c10_hand2) ++ c10_community).Nodup ∧
    c10_hand1.length = 2 ∧ c10_hand2.length = 2 ∧ c10_community.length = 5 ∧
    evaluate_hand c10_hand1 c10_community = ⟨0, 10, -1⟩ ∧
    evaluate_hand c10_hand2 c10_community = ⟨0, 10, -1⟩ ∧
    c10_community.get? 6 = none ∧
    is_hand_better c10_hand1 c10_hand2 c10_community = none := by
  refine ⟨by decide, by decide, by decide, by decide, by decide, by decide,
    by decide, by decide⟩

lemma fallbackLoop_oob (h1 h2 c : List Card) (n : Nat) (hn : c.length ≤ n) :
    fallbackLoop h1 h2 c (n + 1) = none := by
  have h : c.get? n = none := List.get?_eq_none.mpr hn
  simp only [fallbackLoop]
  rw [h]

lemma fallbackLoop_top (h1 h2 c : List Card) :
    fallbackLoop h1 h2 c (2 + c.length) = none := by
  rw [show 2 + c.length = (c.length + 1) + 1 from by omega]
  exact fallbackLoop_oob h1 h2 c (c.length + 1) (by omega)

/-- C8: `is_hand_better` is antisymmetric: whenever it declares the first
hand strictly better, the swapped call declares the second hand not better
(in particular the two calls are never both true). -/
theorem c8_antisymmetry (h1 h2 c : List Card)
    (hA : is_hand_better h1 h2 c = some true) :
    is_hand_better h2 h1 c = some false ∧ is_hand_better h2 h1 c ≠ some true := by
  have hfb1 := fallbackLoop_top h1 h2 c
  have hfb2 := fallbackLoop_top h2 h1 c
  simp only [is_hand_better] at hA ⊢
  split_ifs at hA ⊢ <;> simp_all <;> omega

/-- Closed instance of `c8_antisymmetry`: a pair of aces against a 3-2
high card. -/
theorem c8_antisymmetry_witness :
    is_hand_better c2_opp0 c2_player [] = some true ∧
    is_hand_better c2_player c2_opp0 [] = some false ∧
    is_hand_better c2_player c2_opp0 [] ≠ some true := by
  have h : is_hand_better c2_opp0 c2_player [] = some true := by decide
  exact ⟨h, (c8_antisymmetry c2_opp0 c2_player [] h).1,
    (c8_antisymmetry c2_opp0 c2_player [] h).2⟩

lemma lastBeatIndex_eq_none_iff (bs : List Bool) :
    lastBeatIndex bs = none ↔ ∀ b ∈ bs, b = false := by
  induction bs with
  | nil => simp [lastBeatIndex]
  | cons b rest ih =>
    cases hlb : lastBeatIndex rest with
    | some k =>
      have hbs : lastBeatIndex (b :: rest) = some (k + 1) := by
        simp [lastBeatIndex, hlb]
      rw [hbs]
      constructor
      · intro h; cases h
      · intro h
        have hrest : lastBeatIndex rest = none :=
          ih.mpr fun x hx => h x (List.mem_cons_of_mem b hx)
        rw [hrest] at hlb; cases hlb
    | none =>
      cases b with
      | true =>
        have hbs : lastBeatIndex (true :: rest) = some 0 := by
          simp [lastBeatIndex, hlb]
        rw [hbs]
        constructor
        · intro h; cases h
        · intro h
          have := h true (List.mem_cons_self true rest)
          cases this
      | false =>
        have hbs : lastBeatIndex (false :: rest) = none := by
          simp [lastBeatIndex, hlb]
        rw [hbs]
        constructor
        · intro _ x hx
          rcases List.mem_cons.mp hx with h | h
          · rw [h]
          · exact ih.mp hlb x h
        · intro _; rfl

lemma fwoGo_eq (pe : HandEvaluation) (c : List Card) (opps : List (List Card)) :
    ∀ (i winIdx : Int) (pw : Bool),
      fwoGo pe c opps i winIdx pw =
        match lastBeatIndex (opps.map (fun h => beats (evaluate_hand h c) pe)) with
        | some k => (i + (k : Int), false)
        | none => (winIdx, pw) := by
  induction opps with
  | nil => intro i w p; rfl
  | cons h rest ih =>
    intro i w p
    simp only [fwoGo]
    by_cases hb : beats (evaluate_hand h c) pe = true
    · rw [if_pos hb, ih]
      cases hlb : lastBeatIndex (rest.map (fun h => beats (evaluate_hand h c) pe)) with
      | none =>
        have hc : lastBeatIndex (beats (evaluate_hand h c) pe ::
            rest.map (fun h => beats (evaluate_hand h c) pe)) = some 0 := by
          simp [lastBeatIndex, hlb, hb]
        rw [List.map_cons, hc]
        simp
      | some k =>
        have hc : lastBeatIndex (beats (evaluate_hand h c) pe ::
            rest.map (fun h => beats (evaluate_hand h c) pe)) = some (k + 1) := by
          simp [lastBeatIndex, hlb]
        rw [List.map_cons, hc]
        simp only [Prod.mk.injEq, and_true]
        push_cast
        ring
    · rw [if_neg hb, ih]
      cases hlb : lastBeatIndex (rest.map (fun h => beats (evaluate_hand h c) pe)) with
      | none =>
        have hc : lastBeatIndex (beats (evaluate_hand h c) pe ::
            rest.map (fun h => beats (evaluate_hand h c) pe)) = none := by
          simp [lastBeatIndex, hlb, hb]
        rw [List.map_cons, hc]
      | some k =>
        have hc : lastBeatIndex (beats (evaluate_hand h c) pe ::
            rest.map (fun h => beats (evaluate_hand h c) pe)) = some (k + 1) := by
          simp [lastBeatIndex, hlb]
        rw [List.map_cons, hc]
        simp only [Prod.mk.injEq, and_true]
        push_cast
        ring

lemma fwo_eq_match (p : List Card) (opps : List (List Card)) (c : List Card) :
    find_winning_opponent p opps c =
      match lastBeatIndex
          (opps.map (fun h => beats (evaluate_hand h c) (evaluate_hand p c))) with
      | some k => (k : Int)
      | none => -1 := by
  unfold find_winning_opponent
  rw [fwoGo_eq]
  cases hlb : lastBeatIndex
      (opps.map (fun h => beats (evaluate_hand h c) (evaluate_hand p c))) with
  | none => simp
  | some k => simp

/-- C2 (amended): `find_winning_opponent` returns -1 exactly when no
opponent's evaluation strictly exceeds the player's under the lexicographic
(combination level, primary rank, secondary rank) comparison; and when some
opponent does strictly exceed the player, it returns the index of the LAST
such opponent in scan order, not the one with the greatest evaluation. -/
theorem c2_amended_returns_last_beating_opponent (p : List Card)
    (opps : List (List Card)) (c : List Card) :
    (find_winning_opponent p opps c =
      match lastBeatIndex
          (opps.map (fun h => beats (evaluate_hand h c) (evaluate_hand p c))) with
      | some k => (k : Int)
      | none => -1) ∧
    (find_winning_opponent p opps c = -1 ↔
      ∀ h ∈ opps, beats (evaluate_hand h c) (evaluate_hand p c) = false) := by
  refine ⟨fwo_eq_match p opps c, ?_⟩
  rw [fwo_eq_match]
  cases hlb : lastBeatIndex
      (opps.map (fun h => beats (evaluate_hand h c) (evaluate_hand p c))) with
  | none =>
    constructor
    · intro _ h hm
      exact (lastBeatIndex_eq_none_iff _).mp hlb _ (List.mem_map_of_mem _ hm)
    · intro _; rfl
  | some k =>
    show ((k : Int) = -1 ↔ _)
    constructor
    · intro hk; exfalso; omega
    · intro hall
      exfalso
      have hnone : lastBeatIndex
          (opps.map (fun h => beats (evaluate_hand h c) (evaluate_hand p c))) = none := by
        apply (lastBeatIndex_eq_none_iff _).mpr
        intro b hb
        rcases List.mem_map.mp hb with ⟨h, hm, rfl⟩
        exact hall h hm
      rw [hnone] at hlb
      cases hlb

lemma length_filter_mono {α : Type} (p q : α → Bool)
    (himp : ∀ a, p a = true → q a = true) :
    ∀ l : List α, (l.filter p).length ≤ (l.filter q).length := by
  intro l
  induction l with
  | nil => simp
  | cons a rest ih =>
    by_cases hp : p a = true
    · rw [List.filter_cons_of_pos hp, List.filter_cons_of_pos (himp a hp)]
      simpa using ih
    · rw [List.filter_cons_of_neg hp]
      cases hq : q a with
      | true =>
        rw [List.filter_cons_of_pos hq]
        exact le_trans ih (by simp)
      | false =>
        rw [List.filter_cons_of_neg (by simp [hq])]
        exact ih

lemma length_filter_add_not {α : Type} (p : α → Bool) :
    ∀ l : List α,
      (l.filter p).length + (l.filter (fun a => !(p a))).length = l.length := by
  intro l
  induction l with
  | nil => simp
  | cons a rest ih =>
    cases hp : p a with
    | true =>
      rw [List.filter_cons_of_pos hp, List.filter_cons_of_neg (by simp [hp])]
      simp only [List.length_cons]
      omega
    | false =>
      rw [List.filter_cons_of_neg (by simp [hp]), List.filter_cons_of_pos (by simp [hp])]
      simp only [List.length_cons]
      omega

lemma length_filter_le_one_of_unique {α : Type} (p : α → Bool) :
    ∀ l : List α, l.Nodup →
      (∀ a ∈ l, ∀ b ∈ l, p a = true → p b = true → a = b) →
      (l.filter p).length ≤ 1 := by
  intro l
  induction l with
  | nil => intro _ _; simp
  | cons a rest ih =>
    intro hnd huniq
    rcases List.nodup_cons.mp hnd with ⟨hna, hndr⟩
    by_cases hp : p a = true
    · rw [List.filter_cons_of_pos hp]
      have hempty : rest.filter p = [] := by
        apply List.filter_eq_nil_iff.mpr
        intro b hb hpb
        exact hna (huniq b (List.mem_cons_of_mem a hb) a (List.mem_cons_self a rest)
          hpb hp ▸ hb)
      rw [hempty]
      simp
    · rw [List.filter_cons_of_neg hp]
      exact ih hndr fun x hx y hy hpx hpy =>
        huniq x (List.mem_cons_of_mem a hx) y (List.mem_cons_of_mem a hy) hpx hpy

lemma le_firstRank (cards : List Card) : ∀ c ∈ cards, c.rank ≤ firstRank cards := by
  intro c hc
  have hperm : List.Perm (sortedCards cards) cards := List.perm_insertionSort rankGE cards
  have hmem : c ∈ sortedCards cards := hperm.symm.subset hc
  have hsort : List.Sorted rankGE (sortedCards cards) :=
    List.sorted_insertionSort rankGE cards
  unfold firstRank
  cases hs : sortedCards cards with
  | nil => rw [hs] at hmem; cases hmem
  | cons c0 rest =>
    rw [hs] at hmem hsort
    rcases List.mem_cons.mp hmem with rfl | hr
    · exact le_refl _
    · exact List.rel_of_sorted_cons hsort c hr

lemma firstRank_mem (cards : List Card) (hne : cards ≠ []) :
    ∃ c ∈ cards, c.rank = firstRank cards := by
  have hperm : List.Perm (sortedCards cards) cards := List.perm_insertionSort rankGE cards
  unfold firstRank
  cases hs : sortedCards cards with
  | nil =>
    exact absurd (List.Perm.eq_nil (hs ▸ hperm).symm) hne
  | cons c0 rest =>
    refine ⟨c0, ?_, rfl⟩
    have : c0 ∈ sortedCards cards := by rw [hs]; exact List.mem_cons_self c0 rest
    exact hperm.subset this

lemma exists_of_rankCount_pos (l : List Card) (r : Int) (h : 0 < rankCount l r) :
    ∃ c ∈ l, c.rank = r := by
  unfold rankCount at h
  obtain ⟨c, hc⟩ := List.exists_mem_of_length_pos h
  rcases List.mem_filter.mp hc with ⟨hcl, hcr⟩
  exact ⟨c, hcl, by simpa using hcr⟩

lemma exists_of_suitCount_pos (l : List Card) (s : Int) (h : 0 < suitCount l s) :
    ∃ c ∈ l, c.suit = s := by
  unfold suitCount at h
  obtain ⟨c, hc⟩ := List.exists_mem_of_length_pos h
  rcases List.mem_filter.mp hc with ⟨hcl, hcr⟩
  exact ⟨c, hcl, by simpa using hcr⟩

lemma kindScanGo_inl_level (rc : Int → Nat) :
    ∀ (L : List Int) (h3 h2 : Bool) (ev ev' : HandEvaluation),
      kindScanGo rc L h3 h2 ev = .inl ev' → ev'.combination_level = 8 := by
  intro L
  induction L with
  | nil => intro h3 h2 ev ev' h; cases h
  | cons i rest ih =>
    intro h3 h2 ev ev' h
    by_cases h4 : rc i = 4
    · rw [kindScanGo, if_pos h4] at h
      cases h; rfl
    · by_cases hc3 : rc i = 3
      · rw [kindScanGo, if_neg h4, if_pos hc3] at h
        exact ih _ _ _ _ h
      · by_cases hc2 : rc i = 2
        · rw [kindScanGo, if_neg h4, if_neg hc3, if_pos hc2] at h
          exact ih _ _ _ _ h
        · rw [kindScanGo, if_neg h4, if_neg hc3, if_neg hc2] at h
          exact ih _ _ _ _ h

lemma kindScanGo_no4 (rc : Int → Nat) :
    ∀ (L : List Int) (h3 h2 : Bool) (ev : HandEvaluation),
      (∀ i ∈ L, rc i ≠ 4) →
      ∃ st, kindScanGo rc L h3 h2 ev = .inr st := by
  intro L
  induction L with
  | nil => intro h3 h2 ev _; exact ⟨(h3, h2, ev), rfl⟩
  | cons i rest ih =>
    intro h3 h2 ev hno
    have hi : rc i ≠ 4 := hno i (List.mem_cons_self i rest)
    have hrest : ∀ j ∈ rest, rc j ≠ 4 :=
      fun j hj => hno j (List.mem_cons_of_mem i hj)
    rw [kindScanGo, if_neg hi]
    by_cases hc3 : rc i = 3
    · rw [if_pos hc3]
      exact ih _ _ _ hrest
    · by_cases hc2 : rc i = 2
      · rw [if_neg hc3, if_pos hc2]
        exact ih _ _ _ hrest
      · rw [if_neg hc3, if_neg hc2]
        exact ih _ _ _ hrest

lemma kindScanGo_found4 (rc : Int → Nat) (p : Int) :
    ∀ (L : List Int) (h3 h2 : Bool) (ev : HandEvaluation),
      p ∈ L → rc p = 4 → (∀ i ∈ L, rc i = 4 → i = p) →
      ∃ ev', kindScanGo rc L h3 h2 ev = .inl ev' ∧
        ev'.combination_level = 8 ∧ ev'.highest_card = p := by
  intro L
  induction L with
  | nil => intro h3 h2 ev hp; cases hp
  | cons i rest ih =>
    intro h3 h2 ev hp hrcp huniq
    by_cases hip : i = p
    · subst hip
      exact ⟨{ ev with combination_level := 8, highest_card := i },
        by simp only [kindScanGo, if_pos hrcp], rfl, rfl⟩
    · have hi4 : rc i ≠ 4 := fun h => hip (huniq i (List.mem_cons_self i rest) h)
      have hpr : p ∈ rest := by
        rcases List.mem_cons.mp hp with h | h
        · exact absurd h.symm hip
        · exact h
      have hur : ∀ j ∈ rest, rc j = 4 → j = p :=
        fun j hj => huniq j (List.mem_cons_of_mem i hj)
      rw [kindScanGo, if_neg hi4]
      by_cases hc3 : rc i = 3
      · rw [if_pos hc3]
        exact ih _ _ _ hpr hrcp hur
      · by_cases hc2 : rc i = 2
        · rw [if_neg hc3, if_pos hc2]
          exact ih _ _ _ hpr hrcp hur
        · rw [if_neg hc3, if_neg hc2]
          exact ih _ _ _ hpr hrcp hur

lemma kindScanGo_inr_pair_false (rc : Int → Nat) :
    ∀ (L : List Int) (h3 h2 : Bool) (ev : HandEvaluation) (h3' : Bool)
      (ev' : HandEvaluation),
      kindScanGo rc L h3 h2 ev = .inr (h3', false, ev') →
      h2 = false ∧ ev'.second_highest_card = ev.second_highest_card := by
  intro L
  induction L with
  | nil =>
    intro h3 h2 ev h3' ev' h
    injection h with hh
    have h2f : h2 = false := congrArg (fun t => t.2.1) hh
    have hev : ev = ev' := congrArg (fun t => t.2.2) hh
    exact ⟨h2f, by rw [← hev]⟩
  | cons i rest ih =>
    intro h3 h2 ev h3' ev' h
    by_cases h4 : rc i = 4
    · rw [kindScanGo, if_pos h4] at h
      cases h
    · by_cases hc3 : rc i = 3
      · rw [kindScanGo, if_neg h4, if_pos hc3] at h
        exact ih true h2 { ev with highest_card := i } h3' ev' h
      · by_cases hc2 : rc i = 2
        · rw [kindScanGo, if_neg h4, if_neg hc3, if_pos hc2] at h
          have := (ih h3 true _ h3' ev' h).1
          cases this
        · rw [kindScanGo, if_neg h4, if_neg hc3, if_neg hc2] at h
          exact ih h3 h2 ev h3' ev' h

lemma kindScanGo_inr_no2_second (rc : Int → Nat) :
    ∀ (L : List Int) (h3 h2 : Bool) (ev : HandEvaluation) (h3' h2' : Bool)
      (ev' : HandEvaluation),
      kindScanGo rc L h3 h2 ev = .inr (h3', h2', ev') →
      (∀ i ∈ L, rc i ≠ 2) →
      ev'.second_highest_card = ev.second_highest_card := by
  intro L
  induction L with
  | nil =>
    intro h3 h2 ev h3' h2' ev' h _
    injection h with hh
    have hev : ev = ev' := congrArg (fun t => t.2.2) hh
    rw [← hev]
  | cons i rest ih =>
    intro h3 h2 ev h3' h2' ev' h hno
    by_cases h4 : rc i = 4
    · rw [kindScanGo, if_pos h4] at h
      cases h
    · by_cases hc3 : rc i = 3
      · rw [kindScanGo, if_neg h4, if_pos hc3] at h
        exact ih true h2 { ev with highest_card := i } h3' h2' ev' h
          (fun j hj => hno j (List.mem_cons_of_mem i hj))
      · have hc2 : rc i ≠ 2 := hno i (List.mem_cons_self i rest)
        rw [kindScanGo, if_neg h4, if_neg hc3, if_neg hc2] at h
        exact ih h3 h2 ev h3' h2' ev' h
          (fun j hj => hno j (List.mem_cons_of_mem i hj))

lemma kindScanGo_pass (rc : Int → Nat) :
    ∀ (L : List Int) (h3 h2 : Bool) (ev : HandEvaluation),
      (∀ i ∈ L, rc i ≠ 2 ∧ rc i ≠ 3 ∧ rc i ≠ 4) →
      kindScanGo rc L h3 h2 ev = .inr (h3, h2, ev) := by
  intro L
  induction L with
  | nil => intro h3 h2 ev _; rfl
  | cons i rest ih =>
    intro h3 h2 ev hno
    rcases hno i (List.mem_cons_self i rest) with ⟨hi2, hi3, hi4⟩
    simp only [kindScanGo, if_neg hi4, if_neg hi3, if_neg hi2]
    exact ih _ _ _ (fun j hj => hno j (List.mem_cons_of_mem i hj))

lemma kindScanGo_single_pair (rc : Int → Nat) (p : Int) :
    ∀ (L : List Int) (h3 h2 : Bool) (ev : HandEvaluation),
      (∀ i ∈ L, rc i ≠ 3 ∧ rc i ≠ 4) →
      (∀ i ∈ L, rc i = 2 → i = p) →
      p ∈ L → rc p = 2 →
      (ev.second_highest_card = -1 ∨ ev.second_highest_card = p) →
      kindScanGo rc L h3 h2 ev =
        .inr (h3, true, { ev with second_highest_card := p }) := by
  intro L
  induction L with
  | nil => intro _ _ _ _ _ hp; cases hp
  | cons i rest ih =>
    intro h3 h2 ev hno34 huniq hp hrcp hsec
    rcases hno34 i (List.mem_cons_self i rest) with ⟨hi3, hi4⟩
    by_cases hip : i = p
    · subst hip
      simp only [kindScanGo, if_neg hi4, if_neg hi3, if_pos hrcp]
      have hupd : (if ev.second_highest_card = -1 ∨ i > ev.second_highest_card then i
          else ev.second_highest_card) = i := by
        rcases hsec with h | h
        · rw [if_pos (Or.inl h)]
        · by_cases hneg : ev.second_highest_card = -1
          · rw [if_pos (Or.inl hneg)]
          · have hi1 : ¬(i = -1) := by rw [← h]; exact hneg
            have hcond : ¬(ev.second_highest_card = -1 ∨ i > ev.second_highest_card) := by
              rw [h]
              rintro (h1 | h1)
              · exact hi1 h1
              · exact lt_irrefl i h1
            rw [if_neg hcond]
            exact h
      rw [hupd]
      by_cases hpr : i ∈ rest
      · exact ih h3 true _
          (fun j hj => hno34 j (List.mem_cons_of_mem i hj))
          (fun j hj => huniq j (List.mem_cons_of_mem i hj))
          hpr hrcp (Or.inr rfl)
      · have hrest : ∀ j ∈ rest, rc j ≠ 2 ∧ rc j ≠ 3 ∧ rc j ≠ 4 := by
          intro j hj
          refine ⟨?_, (hno34 j (List.mem_cons_of_mem i hj)).1,
            (hno34 j (List.mem_cons_of_mem i hj)).2⟩
          intro h2j
          exact hpr ((huniq j (List.mem_cons_of_mem i hj) h2j) ▸ hj)
        exact kindScanGo_pass rc rest h3 true _ hrest
    · have hi2 : rc i ≠ 2 := fun h => hip (huniq i (List.mem_cons_self i rest) h)
      have hpr : p ∈ rest := by
        rcases List.mem_cons.mp hp with h | h
        · exact absurd h.symm hip
        · exact h
      simp only [kindScanGo, if_neg hi4, if_neg hi3, if_neg hi2]
      exact ih h3 h2 ev
        (fun j hj => hno34 j (List.mem_cons_of_mem i hj))
        (fun j hj => huniq j (List.mem_cons_of_mem i hj))
        hpr hrcp hsec

lemma straightScan_none (rc : Int → Nat)
    (hno : ∀ r : Nat, r ≤ 8 → ∃ k : Nat, k ≤ 4 ∧ rc ((r : Int) + (k : Int)) = 0) :
    ∀ (n consec : Nat), n + consec ≤ 13 →
      (∀ k : Nat, k < consec → 0 < rc ((n : Int) + (k : Int))) →
      straightScan rc n consec = none := by
  intro n
  induction n with
  | zero => intro consec _ _; rfl
  | succ m ih =>
    intro consec hsum hocc
    simp only [straightScan]
    by_cases hm : 0 < rc (m : Int)
    · rw [if_pos hm]
      by_cases h5 : 5 ≤ consec + 1
      · exfalso
        obtain ⟨k, hk4, hk0⟩ := hno m (by omega)
        cases k with
        | zero => simp at hk0; omega
        | succ j =>
          have hj : j < consec := by omega
          have := hocc j hj
          have hcast : ((m : Int) + ((j + 1 : Nat) : Int))
              = (((m + 1 : Nat) : Int) + (j : Nat)) := by push_cast; ring
          rw [hcast] at hk0
          omega
      · rw [if_neg h5]
        apply ih (consec + 1) (by omega)
        intro k hk
        cases k with
        | zero => simpa using hm
        | succ j =>
          have := hocc j (by omega)
          have hcast : ((m : Int) + ((j + 1 : Nat) : Int))
              = (((m + 1 : Nat) : Int) + (j : Nat)) := by push_cast; ring
          rw [hcast]
          exact this
    · rw [if_neg hm]
      apply ih 0 (by omega)
      intro k hk
      exact absurd hk (Nat.not_lt_zero k)

lemma pairScanGo_count (rc : Int → Nat) :
    ∀ (L : List Int) (pairs : Nat) (ev : HandEvaluation),
      (pairScanGo rc L pairs ev).1 =
        pairs + (L.filter (fun i => decide (rc i = 2))).length := by
  intro L
  induction L with
  | nil => intro pairs ev; simp [pairScanGo]
  | cons i rest ih =>
    intro pairs ev
    by_cases h2 : rc i = 2
    · rw [List.filter_cons_of_pos (by simpa using h2)]
      simp only [pairScanGo, if_pos h2, List.length_cons]
      rw [ih]
      omega
    · rw [List.filter_cons_of_neg (by simpa using h2)]
      simp only [pairScanGo, if_neg h2]
      exact ih _ _

lemma pairScanGo_nochange (rc : Int → Nat) :
    ∀ (L : List Int) (pairs : Nat) (ev : HandEvaluation),
      (∀ i ∈ L, rc i ≠ 2) →
      pairScanGo rc L pairs ev = (pairs, ev) := by
  intro L
  induction L with
  | nil => intro pairs ev _; rfl
  | cons i rest ih =>
    intro pairs ev hno
    simp only [pairScanGo, if_neg (hno i (List.mem_cons_self i rest))]
    exact ih _ _ (fun j hj => hno j (List.mem_cons_of_mem i hj))

lemma pairScanGo_unchanged_ev (rc : Int → Nat) :
    ∀ (L : List Int) (pairs : Nat) (ev : HandEvaluation),
      (∀ i ∈ L, rc i = 2 →
        ¬(ev.highest_card < i) ∧ ¬(ev.second_highest_card < i)) →
      (pairScanGo rc L pairs ev).2 = ev := by
  intro L
  induction L with
  | nil => intro pairs ev _; rfl
  | cons i rest ih =>
    intro pairs ev hcond
    by_cases h2 : rc i = 2
    · rcases hcond i (List.mem_cons_self i rest) h2 with ⟨hhi, hse⟩
      simp only [pairScanGo, if_pos h2, if_neg hhi, if_neg hse]
      exact ih _ _ (fun j hj => hcond j (List.mem_cons_of_mem i hj))
    · simp only [pairScanGo, if_neg h2]
      exact ih _ _ (fun j hj => hcond j (List.mem_cons_of_mem i hj))

lemma length_filter_split {α : Type} (p q : α → Bool) :
    ∀ l : List α, (l.filter p).length =
      (l.filter (fun a => p a && q a)).length +
      (l.filter (fun a => p a && !(q a))).length := by
  intro l
  induction l with
  | nil => simp
  | cons a rest ih =>
    by_cases hp : p a = true
    · cases hq : q a with
      | true =>
        rw [List.filter_cons_of_pos hp,
          List.filter_cons_of_pos (by simp [hp, hq]),
          List.filter_cons_of_neg (by simp [hp, hq])]
        simp only [List.length_cons]
        omega
      | false =>
        rw [List.filter_cons_of_pos hp,
          List.filter_cons_of_neg (by simp [hp, hq]),
          List.filter_cons_of_pos (by simp [hp, hq])]
        simp only [List.length_cons]
        omega
    · rw [List.filter_cons_of_neg hp,
        List.filter_cons_of_neg (by simp [hp]),
        List.filter_cons_of_neg (by simp [hp])]
      exact ih

lemma suitCount_le_of_quad (all : List Card) (hnd : all.Nodup)
    (hlen : all.length ≤ 7) (q : Int) (hq : rankCount all q = 4) (s : Int) :
    suitCount all s ≤ 4 := by
  have hsplit := length_filter_split (fun c : Card => c.suit == s)
    (fun c : Card => c.rank == q) all
  have hA : (all.filter (fun c => c.suit == s && c.rank == q)).length ≤ 1 := by
    apply length_filter_le_one_of_unique _ all hnd
    intro a ha b hb hpa hpb
    simp only [Bool.and_eq_true, beq_iff_eq] at hpa hpb
    cases a; cases b
    simp_all
  have hBmono : (all.filter (fun c => c.suit == s && !(c.rank == q))).length ≤
      (all.filter (fun c : Card => !(c.rank == q))).length := by
    apply length_filter_mono
    intro a ha
    simp only [Bool.and_eq_true] at ha
    exact ha.2
  have hnot := length_filter_add_not (fun c : Card => c.rank == q) all
  unfold suitCount
  unfold rankCount at hq hnot
  omega

lemma rankCount_add_le (all : List Card) (q q' : Int) (hne : q ≠ q') :
    rankCount all q + rankCount all q' ≤ all.length := by
  have hnot := length_filter_add_not (fun c : Card => c.rank == q) all
  have hmono : (all.filter (fun c : Card => c.rank == q')).length ≤
      (all.filter (fun c : Card => !(c.rank == q))).length := by
    apply length_filter_mono
    intro a ha
    have har : a.rank = q' := by simpa using ha
    have : (a.rank == q) = false :=
      beq_eq_false_iff_ne.mpr (by rw [har]; exact Ne.symm hne)
    simp [this]
  unfold rankCount
  omega

/-- C3 (amended): on any valid 2-to-7 distinct-card input in which some suit
occurs at least 5 times, `evaluate_hand` reports combination level 6 with
`highest_card` equal to the highest rank among ALL the input cards (the
overall maximum), not the highest rank of the flush suit, and no secondary
rank. -/
theorem c3_amended_flush_uses_overall_max (hand community : List Card)
    (hlen : hand.length = 2) (hcs : community.length ≤ 5)
    (hnd : (hand ++ community).Nodup)
    (hvalid : ∀ c ∈ hand ++ community,
      0 ≤ c.rank ∧ c.rank ≤ 12 ∧ 0 ≤ c.suit ∧ c.suit ≤ 3)
    (s : Int) (hs : 5 ≤ suitCount (hand ++ community) s) :
    (evaluate_hand hand community).combination_level = 6 ∧
    (∀ c ∈ hand ++ community, c.rank ≤ (evaluate_hand hand community).highest_card) ∧
    (∃ c ∈ hand ++ community, c.rank = (evaluate_hand hand community).highest_card) ∧
    (evaluate_hand hand community).second_highest_card = -1 := by
  have hflush : ((List.range 4).any
      (fun t => 5 ≤ suitCount (hand ++ community) (t : Int))) = true := by
    obtain ⟨c, hc, hcsuit⟩ := exists_of_suitCount_pos (hand ++ community) s (by omega)
    obtain ⟨_, _, hs0, hs3⟩ := hvalid c hc
    rw [hcsuit] at hs0 hs3
    have hcast : ((s.toNat : Nat) : Int) = s := Int.toNat_of_nonneg hs0
    apply List.any_eq_true.mpr
    refine ⟨s.toNat, List.mem_range.mpr (by omega), ?_⟩
    simp only [decide_eq_true_eq]
    rw [hcast]
    exact hs
  have heval : evaluate_hand hand community =
      { combination_level := 6, highest_card := firstRank (hand ++ community),
        second_highest_card := -1 } := by
    simp only [evaluate_hand]
    rw [if_pos hflush]
  rw [heval]
  refine ⟨rfl, ?_, ?_, rfl⟩
  · intro c hc
    exact le_firstRank _ c hc
  · have hne : hand ++ community ≠ [] := by
      intro hnil
      rw [List.append_eq_nil] at hnil
      rw [hnil.1] at hlen
      cases hlen
    obtain ⟨c, hc, hcr⟩ := firstRank_mem (hand ++ community) hne
    exact ⟨c, hc, hcr⟩

/-- Closed instance of `c3_amended_flush_uses_overall_max` at the C3
counterexample input: the spade flush is reported with the off-suit ace's
rank 12 as primary. -/
theorem c3_amended_witness :
    5 ≤ suitCount (c3_hand ++ c3_community) 3 ∧
    (evaluate_hand c3_hand c3_community).combination_level = 6 ∧
    (∀ c ∈ c3_hand ++ c3_community,
      c.rank ≤ (evaluate_hand c3_hand c3_community).highest_card) := by
  refine ⟨by decide, ?_, ?_⟩
  · exact (c3_amended_flush_uses_overall_max c3_hand c3_community (by decide)
      (by decide) (by decide) (by decide) 3 (by decide)).1
  · exact (c3_amended_flush_uses_overall_max c3_hand c3_community (by decide)
      (by decide) (by decide) (by decide) 3 (by decide)).2.1

/-- C5: on any valid 2-to-7 distinct-card input, a rank with occurrence
count 4 forces `evaluate_hand` to report combination level 8 with that rank
as primary (the flush branch cannot fire first: with distinct cards a quad
caps every suit count at 4); and without such a rank the reported level is
strictly below 8. -/
theorem c5_four_of_a_kind (hand community : List Card)
    (hlen : hand.length = 2) (hcs : community.length ≤ 5)
    (hnd : (hand ++ community).Nodup)
    (hvalid : ∀ c ∈ hand ++ community,
      0 ≤ c.rank ∧ c.rank ≤ 12 ∧ 0 ≤ c.suit ∧ c.suit ≤ 3) :
    (∀ q : Int, rankCount (hand ++ community) q = 4 →
      (evaluate_hand hand community).combination_level = 8 ∧
      (evaluate_hand hand community).highest_card = q) ∧
    ((∀ q : Int, rankCount (hand ++ community) q ≠ 4) →
      (evaluate_hand hand community).combination_level < 8) := by
  have hlen7 : (hand ++ community).length ≤ 7 := by
    rw [List.length_append]; omega
  constructor
  · intro q hq
    have hnoflush : ((List.range 4).any
        (fun t => 5 ≤ suitCount (hand ++ community) (t : Int))) = false := by
      apply List.any_eq_false.mpr
      intro x _
      simp only [decide_eq_true_eq]
      have := suitCount_le_of_quad (hand ++ community) hnd hlen7 q hq (x : Int)
      omega
    have hqmem : q ∈ ranks13 := by
      obtain ⟨c, hc, hcr⟩ := exists_of_rankCount_pos (hand ++ community) q (by omega)
      obtain ⟨h0, h12, _, _⟩ := hvalid c hc
      rw [hcr] at h0 h12
      simp only [ranks13, List.mem_cons, List.mem_singleton]
      omega
    have huniq : ∀ i ∈ ranks13, rankCount (hand ++ community) i = 4 → i = q := by
      intro i _ hi
      by_contra hne
      have := rankCount_add_le (hand ++ community) i q hne
      omega
    obtain ⟨ev', hscan, hlev, hhigh⟩ := kindScanGo_found4
      (rankCount (hand ++ community)) q ranks13 false false
      ⟨0, firstRank (hand ++ community), -1⟩ hqmem hq huniq
    have heval : evaluate_hand hand community = ev' := by
      simp only [evaluate_hand, hnoflush, Bool.false_eq_true, if_false]
      rw [hscan]
    rw [heval]
    exact ⟨hlev, hhigh⟩
  · intro hno4
    by_cases hf : ((List.range 4).any
        (fun t => 5 ≤ suitCount (hand ++ community) (t : Int))) = true
    · have heval : evaluate_hand hand community =
          { combination_level := 6, highest_card := firstRank (hand ++ community),
            second_highest_card := -1 } := by
        simp only [evaluate_hand]
        rw [if_pos hf]
      rw [heval]
      norm_num
    · obtain ⟨⟨h3', h2', ev1⟩, hscan⟩ := kindScanGo_no4
        (rankCount (hand ++ community)) ranks13 false false
        ⟨0, firstRank (hand ++ community), -1⟩ (fun i _ => hno4 i)
      simp only [evaluate_hand]
      rw [if_neg hf, hscan]
      split
      · rename_i ev heq
        cases heq
      · rename_i a b ev2 heq
        split
        · norm_num
        · split
          · norm_num
          · split
            · norm_num
            · split
              · norm_num
              · split
                · norm_num
                · norm_num

/-- Closed instance of `c5_four_of_a_kind`: four sevens (rank 5) with a
deuce kicker. -/
theorem c5_witness :
    rankCount ([⟨5, 2⟩, ⟨5, 1⟩] ++ [⟨5, 3⟩, ⟨5, 0⟩, ⟨0, 2⟩]) 5 = 4 ∧
    (evaluate_hand [⟨5, 2⟩, ⟨5, 1⟩] [⟨5, 3⟩, ⟨5, 0⟩, ⟨0, 2⟩]).combination_level = 8 ∧
    (evaluate_hand [⟨5, 2⟩, ⟨5, 1⟩] [⟨5, 3⟩, ⟨5, 0⟩, ⟨0, 2⟩]).highest_card = 5 := by
  have h := (c5_four_of_a_kind [⟨5, 2⟩, ⟨5, 1⟩] [⟨5, 3⟩, ⟨5, 0⟩, ⟨0, 2⟩]
    (by decide) (by decide) (by decide) (by decide)).1 5 (by decide)
  exact ⟨by decide, h.1, h.2⟩

lemma evaluate_hand_inr (hand community : List Card) (h3' h2' : Bool)
    (ev1 : HandEvaluation)
    (hf : ¬((List.range 4).any
      (fun t => 5 ≤ suitCount (hand ++ community) (t : Int))) = true)
    (hk : kindScanGo (rankCount (hand ++ community)) ranks13 false false
      ⟨0, firstRank (hand ++ community), -1⟩ = .inr (h3', h2', ev1)) :
    evaluate_hand hand community =
      (if h3' && h2' then { ev1 with combination_level := 7 }
       else if h3' then { ev1 with combination_level := 3 }
       else
         match straightScan (rankCount (hand ++ community)) 13 0 with
         | some top => { ev1 with combination_level := 4, highest_card := top }
         | none =>
           if 2 ≤ (pairScanGo (rankCount (hand ++ community)) ranks13 0 ev1).1 then
             { (pairScanGo (rankCount (hand ++ community)) ranks13 0 ev1).2 with
                combination_level := 2 }
           else if (pairScanGo (rankCount (hand ++ community)) ranks13 0 ev1).1 = 1 then
             { (pairScanGo (rankCount (hand ++ community)) ranks13 0 ev1).2 with
                combination_level := 1 }
           else
             { (pairScanGo (rankCount (hand ++ community)) ranks13 0 ev1).2 with
                combination_level := 0 }) := by
  simp only [evaluate_hand]
  rw [if_neg hf, hk]

/-- C7 (amended): the secondary rank reported by `evaluate_hand` is -1
whenever the combination level is 0 (high card), 3 (three of a kind) or 6
(flush); the other levels below two-pair reached with a pair present
(one pair, straight, four of a kind) can carry a pair rank instead. -/
theorem c7_amended_secondary_absent (hand community : List Card)
    (hlev : (evaluate_hand hand community).combination_level = 0 ∨
      (evaluate_hand hand community).combination_level = 3 ∨
      (evaluate_hand hand community).combination_level = 6) :
    (evaluate_hand hand community).second_highest_card = -1 := by
  by_cases hf : ((List.range 4).any
      (fun t => 5 ≤ suitCount (hand ++ community) (t : Int))) = true
  · have heval : evaluate_hand hand community =
        { combination_level := 6, highest_card := firstRank (hand ++ community),
          second_highest_card := -1 } := by
      simp only [evaluate_hand]
      rw [if_pos hf]
    rw [heval]
  · rcases hk : kindScanGo (rankCount (hand ++ community)) ranks13 false false
        ⟨0, firstRank (hand ++ community), -1⟩ with ev' | ⟨h3', h2', ev1⟩
    · have h8 := kindScanGo_inl_level (rankCount (hand ++ community))
        ranks13 false false _ ev' hk
      have heval : evaluate_hand hand community = ev' := by
        simp only [evaluate_hand]
        rw [if_neg hf, hk]
      rw [heval] at hlev
      rw [h8] at hlev
      simp at hlev
    · rw [evaluate_hand_inr hand community h3' h2' ev1 hf hk] at hlev ⊢
      by_cases hb1 : (h3' && h2') = true
      · rw [if_pos hb1] at hlev
        simp at hlev
      · rw [if_neg hb1] at hlev ⊢
        by_cases hb2 : h3' = true
        · rw [if_pos hb2] at hlev ⊢
          have hh2 : h2' = false := by
            simp [hb2] at hb1
            exact hb1
          subst hh2
          obtain ⟨-, hsec⟩ := kindScanGo_inr_pair_false
            (rankCount (hand ++ community)) ranks13 false false
            ⟨0, firstRank (hand ++ community), -1⟩ h3' ev1 hk
          exact hsec
        · rw [if_neg hb2] at hlev ⊢
          cases hst : straightScan (rankCount (hand ++ community)) 13 0 with
          | some top =>
            rw [hst] at hlev
            simp at hlev
          | none =>
            rw [hst] at hlev
            by_cases hp2 : 2 ≤ (pairScanGo (rankCount (hand ++ community)) ranks13 0 ev1).1
            · rw [if_pos hp2] at hlev
              simp at hlev
            · rw [if_neg hp2] at hlev ⊢
              by_cases hp1 : (pairScanGo (rankCount (hand ++ community)) ranks13 0 ev1).1 = 1
              · rw [if_pos hp1] at hlev
                simp at hlev
              · rw [if_neg hp1] at hlev ⊢
                have hcount := pairScanGo_count
                  (rankCount (hand ++ community)) ranks13 0 ev1
                have hno2 : ∀ i ∈ ranks13, rankCount (hand ++ community) i ≠ 2 := by
                  intro i hi h2i
                  have hmemf : i ∈ ranks13.filter
                      (fun i => decide (rankCount (hand ++ community) i = 2)) :=
                    List.mem_filter.mpr ⟨hi, by simp [h2i]⟩
                  have hpos := List.length_pos_of_mem hmemf
                  omega
                have hps2 := pairScanGo_nochange
                  (rankCount (hand ++ community)) ranks13 0 ev1 hno2
                have hsnd : (pairScanGo (rankCount (hand ++ community)) ranks13 0 ev1).2
                    = ev1 := by rw [hps2]
                have hsec := kindScanGo_inr_no2_second
                  (rankCount (hand ++ community)) ranks13 false false
                  ⟨0, firstRank (hand ++ community), -1⟩ h3' h2' ev1 hk hno2
                show ((pairScanGo (rankCount (hand ++ community)) ranks13 0 ev1).2).second_highest_card = -1
                rw [hsnd]
                exact hsec

/-- Closed instance of `c7_amended_secondary_absent`: a high-card hand. -/
theorem c7_amended_witness :
    ((evaluate_hand [⟨2, 0⟩, ⟨7, 1⟩] []).combination_level = 0 ∨
      (evaluate_hand [⟨2, 0⟩, ⟨7, 1⟩] []).combination_level = 3 ∨
      (evaluate_hand [⟨2, 0⟩, ⟨7, 1⟩] []).combination_level = 6) ∧
    (evaluate_hand [⟨2, 0⟩, ⟨7, 1⟩] []).second_highest_card = -1 :=
  ⟨Or.inl (by decide),
    c7_amended_secondary_absent [⟨2, 0⟩, ⟨7, 1⟩] [] (Or.inl (by decide))⟩

/-- C6 (amended): on a valid 2-to-7 distinct-card input with no flush, no
three- or four-of-a-kind, no straight and exactly one paired rank `p`,
`evaluate_hand` reports combination level 1, but with `highest_card` equal
to the highest rank among ALL the cards (which may be an unpaired kicker)
and the paired rank stored in `second_highest_card`. -/
theorem c6_amended_one_pair (hand community : List Card)
    (hlen : hand.length = 2) (hcs : community.length ≤ 5)
    (hnd : (hand ++ community).Nodup)
    (hvalid : ∀ c ∈ hand ++ community,
      0 ≤ c.rank ∧ c.rank ≤ 12 ∧ 0 ≤ c.suit ∧ c.suit ≤ 3)
    (hnoflush : ∀ s ∈ List.range 4, suitCount (hand ++ community) (s : Int) < 5)
    (hno34 : ∀ r ∈ ranks13, rankCount (hand ++ community) r ≠ 3 ∧
      rankCount (hand ++ community) r ≠ 4)
    (hnorun : ∀ r ∈ List.range 9, ∃ k ∈ List.range 5,
      rankCount (hand ++ community) ((r : Int) + (k : Int)) = 0)
    (p : Int) (hp : rankCount (hand ++ community) p = 2)
    (huniq : ∀ r ∈ ranks13, rankCount (hand ++ community) r = 2 → r = p) :
    (evaluate_hand hand community).combination_level = 1 ∧
    (evaluate_hand hand community).second_highest_card = p ∧
    (∀ c ∈ hand ++ community, c.rank ≤ (evaluate_hand hand community).highest_card) ∧
    (∃ c ∈ hand ++ community, c.rank = (evaluate_hand hand community).highest_card) := by
  have hf : ¬ ((List.range 4).any
      (fun t => 5 ≤ suitCount (hand ++ community) (t : Int))) = true := by
    intro hany
    obtain ⟨x, hx, hpx⟩ := List.any_eq_true.mp hany
    simp only [decide_eq_true_eq] at hpx
    have := hnoflush x hx
    omega
  have hpmem : p ∈ ranks13 := by
    obtain ⟨c, hc, hcr⟩ := exists_of_rankCount_pos (hand ++ community) p (by omega)
    obtain ⟨h0, h12, _, _⟩ := hvalid c hc
    rw [hcr] at h0 h12
    simp only [ranks13, List.mem_cons, List.mem_singleton]
    omega
  have hk' : kindScanGo (rankCount (hand ++ community)) ranks13 false false
      ⟨0, firstRank (hand ++ community), -1⟩ =
      .inr (false, true, ⟨0, firstRank (hand ++ community), p⟩) :=
    kindScanGo_single_pair (rankCount (hand ++ community)) p ranks13 false false
      ⟨0, firstRank (hand ++ community), -1⟩
      (fun i hi => hno34 i hi) (fun i hi h2i => huniq i hi h2i)
      hpmem hp (Or.inl rfl)
  have hst : straightScan (rankCount (hand ++ community)) 13 0 = none := by
    apply straightScan_none
    · intro r hr
      obtain ⟨k, hkmem, hk0⟩ := hnorun r (List.mem_range.mpr (by omega))
      exact ⟨k, by have := List.mem_range.mp hkmem; omega, hk0⟩
    · omega
    · intro k hk
      exact absurd hk (Nat.not_lt_zero k)
  have hne : hand ++ community ≠ [] := by
    intro hnil
    rw [List.append_eq_nil] at hnil
    rw [hnil.1] at hlen
    cases hlen
  have hple : ¬ (firstRank (hand ++ community) < p) := by
    obtain ⟨c, hc, hcr⟩ := exists_of_rankCount_pos (hand ++ community) p (by omega)
    have := le_firstRank (hand ++ community) c hc
    rw [hcr] at this
    omega
  have hpairs1 : (pairScanGo (rankCount (hand ++ community)) ranks13 0
      ⟨0, firstRank (hand ++ community), p⟩).1 = 1 := by
    have hcount := pairScanGo_count (rankCount (hand ++ community)) ranks13 0
      ⟨0, firstRank (hand ++ community), p⟩
    have hle1 : (ranks13.filter
        (fun i => decide (rankCount (hand ++ community) i = 2))).length ≤ 1 := by
      apply length_filter_le_one_of_unique _ ranks13 (by decide)
      intro a ha b hb hpa hpb
      simp only [decide_eq_true_eq] at hpa hpb
      rw [huniq a ha hpa, huniq b hb hpb]
    have hmemf : p ∈ ranks13.filter
        (fun i => decide (rankCount (hand ++ community) i = 2)) :=
      List.mem_filter.mpr ⟨hpmem, by simp [hp]⟩
    have hpos := List.length_pos_of_mem hmemf
    omega
  have hpsnd : (pairScanGo (rankCount (hand ++ community)) ranks13 0
      ⟨0, firstRank (hand ++ community), p⟩).2 =
      ⟨0, firstRank (hand ++ community), p⟩ := by
    apply pairScanGo_unchanged_ev
    intro i hi h2i
    have hip := huniq i hi h2i
    subst hip
    exact ⟨hple, lt_irrefl _⟩
  have heval := evaluate_hand_inr hand community false true
    ⟨0, firstRank (hand ++ community), p⟩ hf hk'
  rw [hst] at heval
  have heval2 : evaluate_hand hand community =
      ⟨1, firstRank (hand ++ community), p⟩ := by
    rw [heval, hpairs1, hpsnd]
    norm_num
  rw [heval2]
  refine ⟨rfl, rfl, ?_, ?_⟩
  · intro c hc
    exact le_firstRank _ c hc
  · obtain ⟨c, hc, hcr⟩ := firstRank_mem (hand ++ community) hne
    exact ⟨c, hc, hcr⟩

/-- Closed instance of `c6_amended_one_pair` at the C6 counterexample
input: the pair of twos is reported at level 1 with the ace's rank as
primary and the pair rank 0 as secondary. -/
theorem c6_amended_witness :
    rankCount (c6_hand ++ c6_community) 0 = 2 ∧
    (evaluate_hand c6_hand c6_community).combination_level = 1 ∧
    (evaluate_hand c6_hand c6_community).second_highest_card = 0 ∧
    (∀ c ∈ c6_hand ++ c6_community,
      c.rank ≤ (evaluate_hand c6_hand c6_community).highest_card) := by
  have h := c6_amended_one_pair c6_hand c6_community (by decide) (by decide)
    (by decide) (by decide) (by decide) (by decide) (by decide) 0 (by decide)
    (by decide)
  exact ⟨by decide, h.1, h.2.1, h.2.2.1⟩

lemma dealOne_spec : ∀ (d : List Card), badCount d < d.length →
    ∃ c rest, dealOne d = some (c, rest) ∧
      rest.length < d.length ∧
      d.length - rest.length ≤ badCount d + 1 ∧
      badCount rest + (d.length - rest.length) = badCount d + 1 := by
  intro d
  induction d with
  | nil => intro h; simp [badCount] at h
  | cons c rest0 ih =>
    intro h
    by_cases hc : c.rank = -1
    · have hbc : badCount (c :: rest0) = badCount rest0 + 1 := by
        unfold badCount
        rw [List.filter_cons_of_pos (by simp [hc])]
        simp
      have hpre : badCount rest0 < rest0.length := by
        simp only [List.length_cons] at h
        omega
      obtain ⟨c', r', h1, h2, h3, h4⟩ := ih hpre
      refine ⟨c', r', ?_, ?_, ?_, ?_⟩
      · simp only [dealOne]
        rw [if_pos hc]
        exact h1
      · simp only [List.length_cons]; omega
      · simp only [List.length_cons]; omega
      · simp only [List.length_cons]; omega
    · have hbc : badCount (c :: rest0) = badCount rest0 := by
        unfold badCount
        rw [List.filter_cons_of_neg (by simp [hc])]
      refine ⟨c, rest0, ?_, ?_, ?_, ?_⟩
      · simp only [dealOne]
        rw [if_neg hc]
      · simp
      · simp only [List.length_cons]; omega
      · simp only [List.length_cons]; omega

lemma dealHands_spec : ∀ (n : Nat) (d : List Card),
    badCount d + 2 * n ≤ d.length →
    ∃ hands rest, dealHands n d = some (hands, rest) ∧
      hands.length = n ∧
      d.length - rest.length ≤ 2 * n + badCount d ∧
      badCount rest + (d.length - rest.length) ≤ badCount d + 2 * n ∧
      rest.length ≤ d.length := by
  intro n
  induction n with
  | zero =>
    intro d _
    exact ⟨[], d, rfl, rfl, by omega, by omega, le_refl _⟩
  | succ n ih =>
    intro d h
    have h1 : badCount d < d.length := by omega
    obtain ⟨c1, d1, hd1, hlen1, hcons1, hbad1⟩ := dealOne_spec d h1
    have h2 : badCount d1 < d1.length := by omega
    obtain ⟨c2, d2, hd2, hlen2, hcons2, hbad2⟩ := dealOne_spec d1 h2
    have hpre : badCount d2 + 2 * n ≤ d2.length := by omega
    obtain ⟨hands, rest, hdh, hhl, hcons3, hbad3, hrl⟩ := ih d2 hpre
    refine ⟨[c1, c2] :: hands, rest, ?_, ?_, ?_, ?_, ?_⟩
    · simp only [dealHands, hd1, hd2, hdh]
    · simp [hhl]
    · omega
    · omega
    · omega

lemma setRankNeg1_length : ∀ (d : List Card) (i : Nat),
    (setRankNeg1 d i).length = d.length := by
  intro d
  induction d with
  | nil => intro i; rfl
  | cons c rest ih =>
    intro i
    cases i with
    | zero => rfl
    | succ n => simp only [setRankNeg1, List.length_cons, ih]

lemma setRankNeg1_badCount : ∀ (d : List Card) (i : Nat),
    badCount (setRankNeg1 d i) ≤ badCount d + 1 := by
  intro d
  induction d with
  | nil => intro i; exact Nat.le_succ _
  | cons c rest ih =>
    intro i
    cases i with
    | zero =>
      show badCount ({ c with rank := -1 } :: rest) ≤ badCount (c :: rest) + 1
      have h1 : badCount ({ c with rank := -1 } :: rest) = badCount rest + 1 := by
        unfold badCount
        rw [List.filter_cons_of_pos (by simp)]
        simp
      have hge : badCount rest ≤ badCount (c :: rest) := by
        unfold badCount
        by_cases hc : c.rank = -1
        · rw [List.filter_cons_of_pos (by simp [hc])]
          simp only [List.length_cons]
          omega
        · rw [List.filter_cons_of_neg (by simp [hc])]
      omega
    | succ n =>
      show badCount (c :: setRankNeg1 rest n) ≤ badCount (c :: rest) + 1
      have hrec := ih n
      unfold badCount at hrec ⊢
      by_cases hc : c.rank = -1
      · rw [List.filter_cons_of_pos (by simp [hc]),
          List.filter_cons_of_pos (by simp [hc])]
        simp only [List.length_cons]
        omega
      · rw [List.filter_cons_of_neg (by simp [hc]),
          List.filter_cons_of_neg (by simp [hc])]
        exact hrec

lemma markUsed_length : ∀ (known : List Card) (d : List Card),
    (markUsed d known).length = d.length := by
  intro known
  induction known with
  | nil => intro d; rfl
  | cons c ks ih =>
    intro d
    show (markUsed (setRankNeg1 d (c.rank * 4 + c.suit).toNat) ks).length = d.length
    rw [ih, setRankNeg1_length]

lemma markUsed_badCount : ∀ (known : List Card) (d : List Card),
    badCount (markUsed d known) ≤ badCount d + known.length := by
  intro known
  induction known with
  | nil =>
    intro d
    show badCount d ≤ badCount d + ([] : List Card).length
    simp
  | cons c ks ih =>
    intro d
    show badCount (markUsed (setRankNeg1 d (c.rank * 4 + c.suit).toNat) ks) ≤
      badCount d + (c :: ks).length
    have h1 := ih (setRankNeg1 d (c.rank * 4 + c.suit).toNat)
    have h2 := setRankNeg1_badCount d (c.rank * 4 + c.suit).toNat
    simp only [List.length_cons]
    omega

lemma fullDeck_length : fullDeck.length = 52 := by decide

lemma badCount_of_perm (d : List Card) (h : List.Perm d fullDeck) :
    badCount d = 0 := by
  unfold badCount
  have hlen := (List.Perm.filter (fun c => c.rank == -1) h).length_eq
  rw [hlen]
  have hfd : badCount fullDeck = 0 := by decide
  unfold badCount at hfd
  exact hfd

/-- C9: for any shuffle outcome (a permutation of the 52-card deck), any
2-card hand, any community set of at most 5 cards, and 2-6 players, the
opponent-dealing loop of one simulation trial succeeds and consumes at most
17 deck positions, so the deck array is never read at or past index 52. -/
theorem c9_dealing_within_bounds (d playerHand community : List Card)
    (numPlayers : Nat) (hperm : List.Perm d fullDeck)
    (hp : playerHand.length = 2) (hc : community.length ≤ 5)
    (hnp2 : 2 ≤ numPlayers) (hnp6 : numPlayers ≤ 6) :
    ∃ hands rest,
      dealHands (numPlayers - 1) (markUsed d (playerHand ++ community))
        = some (hands, rest) ∧
      52 - rest.length ≤ 17 ∧ rest.length ≤ 52 := by
  have hlen : (markUsed d (playerHand ++ community)).length = 52 := by
    rw [markUsed_length, hperm.length_eq, fullDeck_length]
  have hbad : badCount (markUsed d (playerHand ++ community)) ≤ 7 := by
    have h1 := markUsed_badCount (playerHand ++ community) d
    have h2 : badCount d = 0 := badCount_of_perm d hperm
    have h3 : (playerHand ++ community).length ≤ 7 := by
      rw [List.length_append]; omega
    omega
  have hpre : badCount (markUsed d (playerHand ++ community))
      + 2 * (numPlayers - 1) ≤ (markUsed d (playerHand ++ community)).length := by
    rw [hlen]; omega
  obtain ⟨hands, rest, hdh, hhl, hcons, hbad3, hrl⟩ :=
    dealHands_spec (numPlayers - 1) _ hpre
  exact ⟨hands, rest, hdh, by omega, by omega⟩

/-- Closed instance of `c9_dealing_within_bounds`: the identity permutation,
a pocket pair of twos, empty board, two players. -/
theorem c9_witness :
    ∃ hands rest,
      dealHands (2 - 1) (markUsed fullDeck ([⟨0, 0⟩, ⟨0, 1⟩] ++ []))
        = some (hands, rest) ∧
      52 - rest.length ≤ 17 ∧ rest.length ≤ 52 :=
  c9_dealing_within_bounds fullDeck [⟨0, 0⟩, ⟨0, 1⟩] [] 2 (List.Perm.refl _)
    (by decide) (by decide) (by decide) (by decide)

lemma trial_some (d playerHand community : List Card) (numPlayers : Nat)
    (hperm : List.Perm d fullDeck) (hp : playerHand.length = 2)
    (hc : community.length ≤ 5) (hnp6 : numPlayers ≤ 6) :
    ∃ b, trial d playerHand community numPlayers = some b := by
  have hlen : (markUsed d (playerHand ++ community)).length = 52 := by
    rw [markUsed_length, hperm.length_eq, fullDeck_length]
  have hbad : badCount (markUsed d (playerHand ++ community)) ≤ 7 := by
    have h1 := markUsed_badCount (playerHand ++ community) d
    have h2 : badCount d = 0 := badCount_of_perm d hperm
    have h3 : (playerHand ++ community).length ≤ 7 := by
      rw [List.length_append]; omega
    omega
  have hpre : badCount (markUsed d (playerHand ++ community))
      + 2 * (numPlayers - 1) ≤ (markUsed d (playerHand ++ community)).length := by
    rw [hlen]; omega
  obtain ⟨hands, rest, hdh, -, -, -, -⟩ := dealHands_spec (numPlayers - 1) _ hpre
  refine ⟨decide (find_winning_opponent playerHand hands community = -1), ?_⟩
  simp only [trial]
  rw [hdh]

lemma runSim_spec (trialFn : Nat → Option Bool)
    (hall : ∀ i, ∃ b, trialFn i = some b) :
    ∀ n, ∃ w l, runSim trialFn n = some (w, l, 0) ∧ w + l = n ∧
      w = winCount trialFn n := by
  intro n
  induction n with
  | zero => exact ⟨0, 0, rfl, rfl, rfl⟩
  | succ n ih =>
    obtain ⟨w, l, hrs, hwl, hwc⟩ := ih
    obtain ⟨b, hb⟩ := hall n
    have hwin : winCount trialFn (n + 1) = winCount trialFn n +
        (if trialFn n == some true then 1 else 0) := by
      unfold winCount
      rw [List.range_succ, List.filter_append]
      simp only [List.length_append]
      congr 1
      cases ht : (trialFn n == some true) <;> simp [List.filter, ht]
    cases b with
    | true =>
      have htb : (trialFn n == some true) = true := by rw [hb]; rfl
      refine ⟨w + 1, l, ?_, by omega, ?_⟩
      · simp only [runSim]
        rw [hrs, hb]
      · rw [hwin, htb, ← hwc]
        simp
    | false =>
      have htb : (trialFn n == some true) = false := by rw [hb]; rfl
      refine ⟨w, l + 1, ?_, by omega, ?_⟩
      · simp only [runSim]
        rw [hrs, hb]
      · rw [hwin, htb, ← hwc]
        simp

/-- C4: for any stream of shuffle outcomes, any valid player hand, any
0/3/4/5-card community set, and 2-6 players, the simulator completes all
10000 trials without reading past the deck, the three counters (ties stays
0) sum to the trial count, the divisor is nonzero, and the returned
percentage is `(wins * 100) / (wins + losses + ties)`, an integer at most
100 (and at least 0, being a natural number). -/
theorem c4_probability_bounds (decks : Nat → List Card)
    (playerHand community : List Card) (numPlayers : Nat)
    (hdecks : ∀ i, List.Perm (decks i) fullDeck)
    (hp : playerHand.length = 2)
    (hclen : community.length = 0 ∨ community.length = 3 ∨
      community.length = 4 ∨ community.length = 5)
    (hnp2 : 2 ≤ numPlayers) (hnp6 : numPlayers ≤ 6) :
    ∃ w l : Nat,
      runSim (fun i => trial (decks i) playerHand community numPlayers)
        MONTE_CARLO_SIMULATIONS = some (w, l, 0) ∧
      w + l + 0 = MONTE_CARLO_SIMULATIONS ∧
      w = winCount (fun i => trial (decks i) playerHand community numPlayers)
        MONTE_CARLO_SIMULATIONS ∧
      calculate_win_probability decks playerHand community numPlayers =
        some ((w * 100) / (w + l + 0)) ∧
      (w * 100) / (w + l + 0) ≤ 100 ∧
      w + l + 0 ≠ 0 := by
  have hall : ∀ i, ∃ b, trial (decks i) playerHand community numPlayers = some b :=
    fun i => trial_some _ _ _ _ (hdecks i) hp (by omega) hnp6
  obtain ⟨w, l, hrs, hwl, hwc⟩ := runSim_spec _ hall MONTE_CARLO_SIMULATIONS
  have hMCS : MONTE_CARLO_SIMULATIONS = 10000 := rfl
  have hsum : w + l + 0 = 10000 := by omega
  refine ⟨w, l, hrs, by omega, hwc, ?_, ?_, by omega⟩
  · simp only [calculate_win_probability]
    rw [hrs]
    rfl
  · rw [hsum]
    omega

/-- Closed instance of `c4_probability_bounds`: a constant stream of
identity-permutation decks, a pocket pair of twos, empty board, 2 players. -/
theorem c4_witness :
    ∃ w l : Nat,
      runSim (fun i => trial ((fun _ : Nat => fullDeck) i) [⟨0, 0⟩, ⟨0, 1⟩] [] 2)
        MONTE_CARLO_SIMULATIONS = some (w, l, 0) ∧
      w + l + 0 = MONTE_CARLO_SIMULATIONS ∧
      w = winCount (fun i => trial ((fun _ : Nat => fullDeck) i) [⟨0, 0⟩, ⟨0, 1⟩] [] 2)
        MONTE_CARLO_SIMULATIONS ∧
      calculate_win_probability (fun _ : Nat => fullDeck) [⟨0, 0⟩, ⟨0, 1⟩] [] 2 =
        some ((w * 100) / (w + l + 0)) ∧
      (w * 100) / (w + l + 0) ≤ 100 ∧
      w + l + 0 ≠ 0 :=
  c4_probability_bounds (fun _ => fullDeck) [⟨0, 0⟩, ⟨0, 1⟩] [] 2
    (fun _ => List.Perm.refl _) (by decide) (Or.inl (by decide))
    (by decide) (by decide)
